import Mathlib

/-!
Verification development for the concurrent radix store (`store.c`) and the
event engine (`event.c`) of the repository. The C code is shallowly embedded:
heap nodes become inductive trees, pointer mutation becomes functional update
along an explicit path, machine allocation becomes an explicit oracle
(`List Bool`, consumed in program order, empty list = all allocations
succeed), and a null pointer dereference is modelled as an `Option.none`
result. Loops whose termination is not structural are given an explicit fuel
parameter; every fuel value used below is large enough that the cut-off
branch is unreachable for the inputs considered. The embedding is sequential:
each C function is modelled as the atomic state transformation it performs
when it runs without interleaving, which is the granularity at which the
claims under study are stated.
-/

set_option autoImplicit false

namespace CStore

/-- Bit masks table of `bitwise.c` (`bitmasks[l]` for `l = 0..8`); indices
past the table (undefined behaviour in C) are modelled as `0`. -/
def bitmasks : Nat → Nat
  | 0 => 0x00
  | 1 => 0x01
  | 2 => 0x03
  | 3 => 0x07
  | 4 => 0x0f
  | 5 => 0x1f
  | 6 => 0x3f
  | 7 => 0x7f
  | 8 => 0xff
  | _ + 9 => 0

/-- Fuelled body of `get_bits` from `bitwise.c`. The C function recurses on a
strictly smaller `bit_len` in the byte-spanning branch; the fuel makes that
recursion structural. Reads past the end of the key buffer (heap garbage in
C) are modelled as the byte `0`. `uint8_t` arithmetic is taken mod 256. -/
def get_bits_f : Nat → List Nat → Nat → Nat → Nat
  | 0, _, _, _ => 0
  | fuel + 1, key, bit_index, bit_len =>
    let pos := bit_index / 8
    let idx := bit_index - 8 * pos
    let data := key.getD pos 0
    let shift : Int := (8 - (bit_len : Int)) - (idx : Int)
    if shift < 0 then
      let part1 := bit_len - shift.natAbs
      let part2 := shift.natAbs
      ((((get_bits_f fuel key bit_index part1) <<< part2) % 256
          + get_bits_f fuel key (bit_index + part1) part2) % 256)
        &&& bitmasks bit_len
    else
      (data >>> (8 - bit_len - idx)) &&& bitmasks bit_len

/-- `get_bits(key, bit_index, bit_len)` of `bitwise.c`: the `bit_len` bits of
the bitstream `key` starting at `bit_index`, right-justified. Each recursive
call strictly decreases `bit_len`, so fuel `bit_len + 1` is never
exhausted. -/
def get_bits (key : List Nat) (bit_index bit_len : Nat) : Nat :=
  get_bits_f (bit_len + 1) key bit_index bit_len

/-- A trie node (`store_elem_t` of `store.c`). The maintenance list links
(`olist`/`dlist` pointers) are kept at the store level; the node keeps the
two flag bits of `mask`. `key` holds the bytes seen through `key_ref->key`
(key bytes are shared along a path and freed only by pruning, which is not
exercised by the claims, so each node simply records the byte view). -/
inductive Elem : Type where
  | mk : (id : Nat) → (dlist : Bool) → (olist : Bool) → (key : List Nat) →
      (dat : Nat) → (children : List Elem) → Elem

def Elem.id : Elem → Nat
  | .mk i _ _ _ _ _ => i

def Elem.dlist : Elem → Bool
  | .mk _ d _ _ _ _ => d

def Elem.olist : Elem → Bool
  | .mk _ _ o _ _ _ => o

def Elem.key : Elem → List Nat
  | .mk _ _ _ k _ _ => k

def Elem.dat : Elem → Nat
  | .mk _ _ _ _ v _ => v

def Elem.children : Elem → List Elem
  | .mk _ _ _ _ _ c => c

/-- Set the `MASK_DELETE_LIST` bit (`node->mask |= MASK_DELETE_LIST`). -/
def Elem.setDlist : Elem → Elem
  | .mk i _ o k v c => .mk i true o k v c

/-- Replace the children list (`node->childrens = ...`). -/
def Elem.withChildren : Elem → List Elem → Elem
  | .mk i d o k v _, c => .mk i d o k v c

/-- The store context (`store_s`): the root's children, the key/slice
parameters fixed at creation, and the two maintenance lists. The intrusive
`olist`/`dlist` chains are represented by the keys of the nodes pushed onto
them, newest first (`ATOMIC_store` head-prepend). -/
structure Store : Type where
  children : List Elem
  keySize : Nat
  bits : Nat
  olistKeys : List (List Nat)
  dlistKeys : List (List Nat)

/-- Sibling scan of `find_node` / `store_add`: first node of the list whose
`id` matches the slice and that is not on the delete list
(`while (node && (node->id != id || NODEP_dlist(node))) node = node->next`),
together with its position. -/
def scanIdx (slice : Nat) : List Elem → Option (Nat × Elem)
  | [] => none
  | e :: t =>
    if e.id = slice ∧ e.dlist = false then some (0, e)
    else (scanIdx slice t).map (fun r => (r.1 + 1, r.2))

/-- Result of `find_node`: the C function returns either the root sentinel
`ctx->data` (empty list at the current level, or key bits exhausted), the
last matched ancestor `ret` (`.ret p`, with `.ret []` again the root), or a
childless live match (`.exact p`). Paths are lists of sibling positions from
the root's child list. -/
inductive FindRes : Type where
  | toRoot : FindRes
  | ret : List Nat → FindRes
  | exact : List Nat → FindRes
deriving DecidableEq

/-- The descent loop of `find_node`. One fuel unit per trie level; the top
level call supplies more fuel than `8 * keySize` levels, and since a level
advances `index` by `bits ≥ 1` the zero-fuel branch is unreachable. The
second component counts the nodes of the descent path visited at this level
and below (the matched node of each iteration). -/
def findLoop (K B : Nat) (key : List Nat) : Nat → List Elem → Nat → FindRes × Nat
  | 0, _, _ => (.toRoot, 0)
  | fuel + 1, l, index =>
    if l.isEmpty then (.toRoot, 0)
    else if 8 * K ≤ index then (.toRoot, 0)
    else
      match scanIdx (get_bits key index B) l with
      | none => (.ret [], 0)
      | some (i, t) =>
        if t.children.isEmpty then (.exact [i], 1)
        else
          match findLoop K B key fuel t.children (index + B) with
          | (.toRoot, c) => (.toRoot, c + 1)
          | (.ret q, c) => (.ret (i :: q), c + 1)
          | (.exact q, c) => (.exact (i :: q), c + 1)

/-- `find_node(ctx, NULL, key)` on a store (descent from the root). -/
def findRes (s : Store) (key : List Nat) : FindRes :=
  (findLoop s.keySize s.bits key (8 * s.keySize + 1) s.children 0).1

/-- Number of trie nodes on the descent path traversed by `find_node`,
counting the root sentinel. -/
def findCount (s : Store) (key : List Nat) : Nat :=
  (findLoop s.keySize s.bits key (8 * s.keySize + 1) s.children 0).2 + 1

/-- Resolve a `FindRes` to the path of the returned node, or `none` when the
returned node is the root sentinel (whose `parent` is `NULL` and whose
`key_ref` is `NULL`). -/
def resPath : FindRes → Option (List Nat)
  | .toRoot => none
  | .ret [] => none
  | .ret p => some p
  | .exact p => some p

/-- Node lookup along a path of sibling positions. -/
def nodeAt : List Elem → List Nat → Option Elem
  | _, [] => none
  | l, i :: p =>
    match l[i]? with
    | none => none
    | some n =>
      match p with
      | [] => some n
      | _ => nodeAt n.children p

/-- Apply `f` to the element at position `i` (functional form of mutating
through a node pointer). -/
def modifyIdx : List Elem → Nat → (Elem → Elem) → List Elem
  | [], _, _ => []
  | e :: t, 0, f => f e :: t
  | e :: t, i + 1, f => e :: modifyIdx t i f

/-- Set the delete flag on the node at path `p`
(`node->mask |= MASK_DELETE_LIST` through the pointer `find_node`
returned). -/
def setDlistAt (l : List Elem) : List Nat → List Elem
  | [] => l
  | i :: p =>
    modifyIdx l i (fun n =>
      match p with
      | [] => n.setDlist
      | _ => n.withChildren (setDlistAt n.children p))

/-- `store_find`. A `none` key is the NULL pointer: the C code performs no
null check, and the first loop iteration of `find_node` dereferences the key
(`get_bits`), which is modelled as the crash result `none`; with an empty
trie (or a zero key size) the loop body never runs and the call returns
`false`. For a non-null key the call returns whether the node `find_node`
reached is a childless node whose `key_ref->key` equals the key. -/
def store_find (s : Store) (k : Option (List Nat)) : Option Bool :=
  match k with
  | none =>
    if s.children.isEmpty ∨ s.keySize = 0 then some false else none
  | some key =>
    some (match resPath (findRes s key) with
      | none => false
      | some p =>
        match nodeAt s.children p with
        | none => false
        | some n => n.key = key && n.children.isEmpty)

/-- `store_delete`. The C code checks `key == NULL` and returns `false`.
Otherwise it runs `find_node`; on a non-root childless node whose key
matches, it sets the delete flag and head-prepends the node onto the
store-wide delete list (guarded by `NODEP_dlist`), returning `true`. -/
def store_delete (s : Store) (k : Option (List Nat)) : Bool × Store :=
  match k with
  | none => (false, s)
  | some key =>
    match resPath (findRes s key) with
    | none => (false, s)
    | some p =>
      match nodeAt s.children p with
      | none => (false, s)
      | some n =>
        if n.children.isEmpty ∧ n.key = key then
          (true,
            if n.dlist then s
            else { s with
                    children := setDlistAt s.children p,
                    dlistKeys := key :: s.dlistKeys })
        else (false, s)

/-- One `ALLOC` call against the allocation oracle: the head of the oracle
decides success, an exhausted oracle always succeeds. -/
def allocStep : List Bool → Bool × List Bool
  | [] => (true, [])
  | b :: r => (b, r)

/-- Children list of the node at path `p` (`[]` addresses the root). -/
def childrenAt : List Elem → List Nat → List Elem
  | l, [] => l
  | l, i :: p =>
    match l[i]? with
    | none => []
    | some n => childrenAt n.children p

/-- Apply `f` to the node at path `p` (mutation through the node pointer
`find_node` returned). -/
def modifyIdxPath : List Elem → List Nat → (Elem → Elem) → List Elem
  | l, [], _ => l
  | l, i :: p, f =>
    modifyIdx l i (fun n =>
      match p with
      | [] => f n
      | _ => n.withChildren (modifyIdxPath n.children p f))

/-- Rewrite the children list of the node at path `p` (`[]` addresses the
root's children). -/
def modifyChildrenAt (g : List Elem → List Elem) : List Elem → List Nat → List Elem
  | l, [] => g l
  | l, i :: p => modifyIdx l i (fun n => n.withChildren (modifyChildrenAt g n.children p))

/-- The `while (!ret)` retry loop of `store_add`, one fuel unit per
iteration. Each iteration re-runs `find_node`.

On a childless non-root node: an equal key breaks out with `false`
(duplicate); otherwise a split node `inject` is allocated (oracle), carrying
the leaf's value, key view (`key_ref`) and a cleared `mask`, with
`id = get_bits(key_ref->key, (level+1)*bits, bits)`, and attached as the
leaf's sole child if the leaf is still childless (re-checked under the
node's spin lock); the loop then retries.

Otherwise the returned node (root or last matched ancestor) is the insert
point: the new element gets `level = node->level + 1` (the path length) and
its `id` slice, the children are rescanned under the spin lock — skipping
nodes on the delete list exactly as `find_node` does — and if no live match
remains the element is head-prepended to the children and to the expiry
list. A live match found by the rescan is a race duplicate and the loop
retries (sequentially unreachable). -/
def addLoop (key : List Nat) (v : Nat) : Nat → Store → List Bool → Option (Bool × Store)
  | 0, _, _ => none
  | fuel + 1, s, allocs =>
    match findRes s key with
    | .exact p =>
      match nodeAt s.children p with
      | none => none
      | some n =>
        if n.key = key then some (false, s)
        else
          let (ok, a') := allocStep allocs
          if !ok then some (false, s)
          else
            let inject : Elem :=
              .mk (get_bits n.key (p.length * s.bits) s.bits) false false n.key n.dat []
            let attach : Elem → Elem :=
              fun m => if m.children.isEmpty then m.withChildren [inject] else m
            let s' : Store := { s with children := modifyIdxPath s.children p attach }
            addLoop key v fuel s' a'
    | r =>
      let p := match r with | .ret q => q | _ => []
      let cs := childrenAt s.children p
      let id := get_bits key (p.length * s.bits) s.bits
      match scanIdx id cs with
      | some _ => addLoop key v fuel s allocs
      | none =>
        let el : Elem := .mk id false true key v []
        some (true,
          { s with
              children := modifyChildrenAt (fun c => el :: c) s.children p,
              olistKeys := key :: s.olistKeys })

/-- `store_add`. The element and its key buffer are allocated first (two
oracle draws); either failure returns `false` with the store untouched. The
key bytes are then copied (`memcpy`): a `none` key is the NULL pointer and
the copy dereferences it whenever the key size is positive, modelled as the
crash result `none`. The retry loop gets `8 * keySize + 2` fuel units —
strictly more than the trie can be deep, and every split iteration deepens
the found leaf, so the cut-off is unreachable sequentially. -/
def store_add (allocs : List Bool) (s : Store) (k : Option (List Nat)) (v : Nat) :
    Option (Bool × Store) :=
  let (ok1, a1) := allocStep allocs
  if !ok1 then some (false, s)
  else
    let (ok2, a2) := allocStep a1
    if !ok2 then some (false, s)
    else
      match k with
      | none =>
        if s.keySize = 0 then addLoop [] v (8 * s.keySize + 2) s a2 else none
      | some key => addLoop key v (8 * s.keySize + 2) s a2

end CStore

namespace CEvm

/-- A head/tail pointer pair of `event.c` (session queue on the context,
group queue on a session, event queue on a group). `chain` is the list of
nodes reachable from `head` through `next`; `tailp` is the node the `tail`
pointer designates (nodes are identified by a numeric id standing for their
address). The queue functions below are translated branch-for-branch from
the C; the branch that writes `tail->next = x` is rendered as appending
after the last chain node, which is where that store lands whenever the
FIFO invariant (proved below) holds on entry. -/
structure EvmFifo : Type where
  chain : List Nat
  tailp : Option Nat
deriving DecidableEq

/-- `evm_ctx_push_session`: a NULL session is rejected; otherwise the
session is attached at the tail (`tail->next`/`tail`, or `head`/`tail` when
the queue was empty) and returned. -/
def evm_ctx_push_session (q : EvmFifo) (s : Option Nat) : Option Nat × EvmFifo :=
  match s with
  | none => (none, q)
  | some sid =>
    match q.tailp with
    | some _ => (some sid, ⟨q.chain ++ [sid], some sid⟩)
    | none => (some sid, ⟨[sid], some sid⟩)

/-- `evm_ctx_pop_session`: take the head; if the new head is NULL, also
clear the tail pointer. -/
def evm_ctx_pop_session (q : EvmFifo) : Option Nat × EvmFifo :=
  match q.chain with
  | [] => (none, q)
  | h :: rest => (some h, ⟨rest, if rest.isEmpty then none else q.tailp⟩)

/-- `evm_session_pop_grp`: same pop discipline on a session's group
queue. -/
def evm_session_pop_grp (q : EvmFifo) : Option Nat × EvmFifo :=
  match q.chain with
  | [] => (none, q)
  | h :: rest => (some h, ⟨rest, if rest.isEmpty then none else q.tailp⟩)

/-- `evm_grp_push_event`: same push discipline on a group's event queue; a
NULL event is rejected. -/
def evm_grp_push_event (q : EvmFifo) (e : Option Nat) : Option Nat × EvmFifo :=
  match e with
  | none => (none, q)
  | some eid =>
    match q.tailp with
    | some _ => (some eid, ⟨q.chain ++ [eid], some eid⟩)
    | none => (some eid, ⟨[eid], some eid⟩)

/-- FIFO invariant on a head/tail pair: the head pointer is null exactly
when the tail pointer is, and the tail pointer designates the last node of
the head chain. -/
def fifoWF (q : EvmFifo) : Prop :=
  (q.chain = [] ↔ q.tailp = none) ∧ q.tailp = q.chain.getLast?

/-- An event (`evm_event_s`) during session processing: its identity and its
`dispatched` flag. Event type, data and callbacks are carried by the
dispatch oracles. -/
structure MEvent : Type where
  uid : Nat
  dispatched : Bool
deriving DecidableEq

/-- An event group (`evm_event_grp_s`): generation depth and its event FIFO
(head first; value-level list form of the verified head/tail queue). -/
structure MGrp : Type where
  depth : Nat
  events : List MEvent
deriving DecidableEq

/-- A session (`evm_session_s`): its group FIFO (head first). The session
callback is modelled by the `halts` oracle of the processing functions. -/
structure MSession : Type where
  grps : List MGrp
deriving DecidableEq

/-- Observable actions of session processing, in program order: an event is
handed to its listeners (`dispatched` set and listener loop run), the
session callback receives `EventComplete` with the reported `halt` flag, an
event destroy callback runs with its `dispatched` flag, a group is freed, a
session is freed (`SessionDestroy` callback). -/
inductive EvAction : Type where
  | disp : Nat → Nat → EvAction
  | comp : Nat → Nat → Bool → EvAction
  | evDestroy : Nat → Bool → EvAction
  | grpDestroy : Nat → EvAction
  | sessDestroy : EvAction
deriving DecidableEq

/-- `evm_session_append` during dispatch: create an event (cleared
`dispatched` flag) and push it onto the *back* group of the session
(`evm_session_back_grp` + `evm_grp_push_event`, an append at the tail).
With no back group the call fails and the session is unchanged. -/
def appendToBack (s : MSession) (u : Nat) : MSession :=
  match s.grps.getLast? with
  | none => s
  | some g => ⟨s.grps.dropLast ++ [⟨g.depth, g.events ++ [⟨u, false⟩]⟩]⟩

/-- All `session_append` calls made by the listeners of one event, in call
order. -/
def appendAll (s : MSession) (us : List Nat) : MSession :=
  us.foldl appendToBack s

/-- `evm_dispatch_event` on event `e` of a group of depth `d`, given the
oracles `ap` (the child events the listener callbacks append for each event
id, in call order) and `hs` (whether the session callback sets `halt` in the
`EventComplete` notification of each event id). The event's `dispatched`
flag is set, its listeners run (performing the appends), `EventComplete` is
reported, and the *inverted* `halt` flag is returned. -/
def evm_dispatch_event (ap : Nat → List Nat) (hs : Nat → Bool) (s : MSession) (e : MEvent) :
    Bool × MSession :=
  (!(hs e.uid), appendAll s (ap e.uid))

/-- Inner event loop of `evm_session_process`
(`while (run && (event = evm_grp_pop_event(grp)))`): dispatch each event of
the popped group, destroy it (its `dispatched` flag is now set), and stop
when dispatch returns `false`. Returns the emitted trace, the session (with
all appends applied), the final `run` flag and the events left undispatched
in the group. -/
def processEvents (ap : Nat → List Nat) (hs : Nat → Bool) (d : Nat) :
    List MEvent → MSession → List EvAction × MSession × Bool × List MEvent
  | [], s => ([], s, true, [])
  | e :: rest, s =>
    let (run, s1) := evm_dispatch_event ap hs s e
    let trE : List EvAction := [.disp e.uid d, .comp e.uid d (hs e.uid), .evDestroy e.uid true]
    if run then
      let (tr, s2, run2, rem) := processEvents ap hs d rest s1
      (trE ++ tr, s2, run2, rem)
    else (trE, s1, false, rest)

/-- Outer group loop of `evm_session_process`
(`while (run && (grp = evm_session_pop_grp(session)))`), one fuel unit per
generation (callbacks may extend the session indefinitely, so the loop has
no intrinsic bound). A group with no events is freed and skipped. Otherwise
a fresh group one level deeper is pushed at the back — the target of every
`session_append` made while this group is processed — the events are
processed, the events never popped are destroyed with their (cleared)
`dispatched` flag, and the group is freed. `run = false` stops the loop. -/
def processLoop (ap : Nat → List Nat) (hs : Nat → Bool) :
    Nat → MSession → List EvAction × MSession
  | 0, s => ([], s)
  | fuel + 1, s =>
    match s.grps with
    | [] => ([], s)
    | g :: gs =>
      if g.events.isEmpty then
        let (tr, s') := processLoop ap hs fuel ⟨gs⟩
        (.grpDestroy g.depth :: tr, s')
      else
        let s2 : MSession := ⟨gs ++ [⟨g.depth + 1, []⟩]⟩
        let (tr, s3, run, rem) := processEvents ap hs g.depth g.events s2
        let trG := tr ++ rem.map (fun e => .evDestroy e.uid e.dispatched) ++ [.grpDestroy g.depth]
        if run then
          let (tr', s') := processLoop ap hs fuel s3
          (trG ++ tr', s')
        else (trG, s3)

/-- `evm_destroy_session`: every group still queued is freed, destroying its
events with their `dispatched` flags, then the session callback gets
`SessionDestroy`. -/
def destroySessionTrace (s : MSession) : List EvAction :=
  (s.grps.flatMap (fun g =>
    g.events.map (fun e => .evDestroy e.uid e.dispatched) ++ [.grpDestroy g.depth]))
    ++ [.sessDestroy]

/-- `evm_session_process`: the group loop followed by
`evm_destroy_session`. -/
def processSession (ap : Nat → List Nat) (hs : Nat → Bool) (fuel : Nat) (s : MSession) :
    List EvAction :=
  let (tr, s') := processLoop ap hs fuel s
  tr ++ destroySessionTrace s'

/-- The uids handed to listeners at depth `d`, in trace order. -/
def dispAt (d : Nat) (tr : List EvAction) : List Nat :=
  tr.filterMap (fun a =>
    match a with
    | .disp u d' => if d' = d then some u else none
    | _ => none)

/-- Child uids appended by the listeners of the given events, in dispatch
and call order. -/
def childUids (ap : Nat → List Nat) (es : List MEvent) : List Nat :=
  es.flatMap (fun e => ap e.uid)

/-- Trace segment produced by one fully processed generation. -/
def genTrace (hs : Nat → Bool) (d : Nat) (es : List MEvent) : List EvAction :=
  es.flatMap (fun e => [.disp e.uid d, .comp e.uid d (hs e.uid), .evDestroy e.uid true])

/-- Strict ordering of action classes in a trace: every action satisfying
`p` occurs strictly before every action satisfying `q`. -/
def ordered (tr : List EvAction) (p q : EvAction → Prop) : Prop :=
  ∀ i j, (hi : i < tr.length) → (hj : j < tr.length) →
    p (tr.get ⟨i, hi⟩) → q (tr.get ⟨j, hj⟩) → i < j

/-- An `EventComplete` action of generation `d`. -/
def isCompAt (d : Nat) : EvAction → Prop
  | .comp _ d' _ => d' = d
  | _ => False

/-- A listener hand-off action of generation `d`. -/
def isDispAt (d : Nat) : EvAction → Prop
  | .disp _ d' => d' = d
  | _ => False

/-- A freshly created event (`evm_create_event` zero-initializes the
`dispatched` flag). -/
def mkEv (u : Nat) : MEvent := ⟨u, false⟩

/-- Generation actions at depth at least `D` (destroy actions carry no
generation). -/
def depthOK (D : Nat) : EvAction → Prop
  | .disp _ d => D ≤ d
  | .comp _ d _ => D ≤ d
  | .grpDestroy d => D ≤ d
  | _ => True

/-- All uids handed to listeners, any generation, in trace order. -/
def allDisp (tr : List EvAction) : List Nat :=
  tr.filterMap (fun a =>
    match a with
    | .disp u _ => some u
    | _ => none)

/-- A listener (`evm_listener_s`): its identity (standing for its address)
and its callback pointer, `none` once logically removed. -/
structure MListener : Type where
  lid : Nat
  cb : Option Nat
deriving DecidableEq

/-- `evm_remove_listener`: atomically store NULL into the callback of the
targeted listener (identified by its id); the listener stays linked. -/
def evm_remove_listener (ls : List MListener) (target : Nat) : List MListener :=
  ls.map (fun x => if x.lid = target then ⟨x.lid, none⟩ else x)

/-- The listener traversal of `evm_dispatch_event`: each listener's callback
is fetched atomically and invoked only when non-null; the returned list is
the sequence of listeners actually invoked. -/
def dispatchInvoked (ls : List MListener) : List MListener :=
  ls.filter (fun l => l.cb.isSome)

/-- Worker-thread creation loop of `evm_initialize`: request up to `n`
threads, stopping at the first failure; returns the count created. -/
def countWorkers : List Bool → Nat → Nat
  | _, 0 => 0
  | o, n + 1 =>
    let (ok, o') := CStore.allocStep o
    if ok then 1 + countWorkers o' n else 0

/-- The engine context handle produced by `evm_initialize`, reduced to the
fields the claim observes. -/
structure MCtx : Type where
  wcnt : Nat
  mfreq : Nat
deriving DecidableEq

/-- `evm_initialize(nworkers, mfreq)`. The context is allocated (oracle),
`mfreq == 0` is replaced by 60, the synchronization objects are initialized
and the maintenance thread is requested (oracle); then `nworkers == 0` is
replaced by 1, the worker array is allocated (oracle) and up to `nworkers`
worker threads are requested (oracle each). If no worker thread could be
created everything is torn down and NULL is returned; otherwise the handle
is returned with the count of workers actually running. -/
def evm_initialize (oracle : List Bool) (nworkers mfreq : Nat) : Option MCtx :=
  let (ok1, o1) := CStore.allocStep oracle
  if !ok1 then none
  else
    let mfreq' := if mfreq = 0 then 60 else mfreq
    let (okm, o2) := CStore.allocStep o1
    if !okm then none
    else
      let n := if nworkers = 0 then 1 else nworkers
      let (okw, o3) := CStore.allocStep o2
      if !okw then none
      else
        let wcnt := countWorkers o3 n
        if wcnt = 0 then none else some ⟨wcnt, mfreq'⟩

end CEvm

namespace CStore

/-- At most one live (not delete-flagged) node per slice id in a sibling
list. Sequential executions of `store_add` maintain this: an insertion is
performed only after the spin-locked rescan finds no live node with the same
id in the target child list. -/
def liveOk (l : List Elem) : Prop :=
  l.Pairwise (fun a b => a.dlist = false → b.dlist = false → a.id ≠ b.id)

/-- Well-formedness of a trie level: `liveOk` here and recursively in every
child list. -/
inductive WfL : List Elem → Prop where
  | mk : ∀ l : List Elem, liveOk l → (∀ e ∈ l, WfL e.children) → WfL l

/-- Store with a single delete-flagged leaf for key `AB` (`K = 1`,
`B = 8`): the state reached by `add 0xAB` then `delete 0xAB`, before any
prune. -/
def sFlagged : Store :=
  ⟨[Elem.mk 0xAB true true [0xAB] 5 []], 1, 8, [[0xAB]], [[0xAB]]⟩

/-- Store with a single live leaf for key `AB` (`K = 1`, `B = 8`). -/
def sLive : Store :=
  ⟨[Elem.mk 0xAB false true [0xAB] 5 []], 1, 8, [[0xAB]], []⟩

/-- First byte string of the split scenario (`K = 3`, `B = 8`). -/
def kSplitA : List Nat := [0xAA, 0xBB, 0xCC]

/-- Second byte string of the split scenario: shares the first two slices
with `kSplitA` and differs in the third. -/
def kSplitB : List Nat := [0xAA, 0xBB, 0xDD]

/-- Store with a single live leaf for `kSplitA` (`K = 3`, `B = 8`). -/
def sSplit : Store :=
  ⟨[Elem.mk 0xAA false true kSplitA 1 []], 3, 8, [kSplitA], []⟩

end CStore

namespace CEvm

/-- Append oracle of the nested-generation scenario: the listeners of event
`0` append events `1` and `2`; no other event appends. -/
def apNest : Nat → List Nat := fun u => if u = 0 then [1, 2] else []

/-- Halt oracle that halts on the `EventComplete` of event `0`. -/
def hsHalt : Nat → Bool := fun u => u = 0

/-- Halt oracle that never halts. -/
def hsNone : Nat → Bool := fun _ => false

end CEvm

namespace CStore

/-- C1: refuted by execution — on a store holding a delete-flagged leaf with
key `AB`, `store_add` of the same key skips the flagged node in its sibling
scan (`tmp->id != el->id || NODEP_dlist(tmp)` treats it like a non-match,
not a collision), inserts a second leaf at the head of the sibling list and
returns `true`; the resulting child list holds two leaves with the full key
`AB` (one live, one delete-flagged) until the next prune. -/
theorem store_add_duplicates_deleted_key :
    store_add [] sFlagged (some [0xAB]) 7
      = some (true,
          ⟨[Elem.mk 0xAB false true [0xAB] 7 [], Elem.mk 0xAB true true [0xAB] 5 []],
            1, 8, [[0xAB], [0xAB]], [[0xAB]]⟩) := rfl

/-- C6 counterexample: on a store with the single leaf `AA BB CC`
(`K = 3`, `B = 8`), adding `AA BB DD` with the oracle granting the element,
its key copy and the first split node but refusing the second split node
makes `store_add` return `false` — yet the store is not as it was: the first
split node remains attached below the old leaf. -/
theorem store_add_split_alloc_fail_modifies :
    store_add [true, true, true, false] sSplit (some kSplitB) 2
        = some (false,
            ⟨[Elem.mk 0xAA false true kSplitA 1 [Elem.mk 0xBB false false kSplitA 1 []]],
              3, 8, [kSplitA], []⟩) ∧
      (⟨[Elem.mk 0xAA false true kSplitA 1 [Elem.mk 0xBB false false kSplitA 1 []]],
          3, 8, [kSplitA], []⟩ : Store) ≠ sSplit :=
  ⟨rfl, fun h =>
    absurd (congrArg (fun st : Store => (nodeAt st.children [0, 0]).isSome) h) (by decide)⟩

/-- C6 amended: if the allocation of the new element or of its key buffer
fails, `store_add` returns `false` and the store — trie, expiry list and
delete list — is exactly unchanged. (A later split-node allocation failure
also returns `false`, but split nodes attached by earlier iterations of the
same call remain in the trie, as the counterexample shows.) -/
theorem store_add_early_alloc_fail_unchanged (s : Store) (k : Option (List Nat)) (v : Nat)
    (rest : List Bool) :
    store_add (false :: rest) s k v = some (false, s) ∧
      store_add (true :: false :: rest) s k v = some (false, s) :=
  ⟨rfl, rfl⟩

/-- C8 counterexample: on a store with one live leaf (`K = 1`), `store_add`
and `store_find` with a NULL key do not return `false`: the C code has no
null check on these paths and dereferences the key (`memcpy` in `store_add`,
`get_bits` in `find_node`), modelled by the crash result `none`. -/
theorem store_null_key_not_checked :
    store_add [] sLive none 7 = none ∧ store_find sLive none = none :=
  ⟨rfl, rfl⟩

/-- C8 amended: `store_delete` with a NULL key returns `false` with no side
effects (the code checks `key == NULL`); `store_find` with a NULL key
returns `false` only when the trie has no nodes (or the key size is zero),
since its descent loop never dereferences the key in that case; `store_add`
with a NULL key (positive key size) and `store_find` with a NULL key on a
non-empty trie dereference the null pointer instead of returning `false`. -/
theorem store_null_key_behavior (s : Store) (v : Nat) (allocs : List Bool) :
    store_delete s none = (false, s) ∧
      (0 < s.keySize → store_add (true :: true :: allocs) s none v = none) ∧
      (s.children = [] → store_find s none = some false) ∧
      (s.children ≠ [] → 0 < s.keySize → store_find s none = none) := by
  refine ⟨rfl, fun hk => ?_, fun hc => ?_, fun hc hk => ?_⟩
  · have h0 : s.keySize ≠ 0 := by omega
    simp [store_add, allocStep, h0]
  · simp [store_find, hc]
  · have h1 : s.children.isEmpty = false := by
      cases h : s.children with
      | nil => exact absurd h hc
      | cons a t => rfl
    have h0 : ¬ s.keySize = 0 := by omega
    simp [store_find, h1, h0]

/-- C8 amended, witness at the one-leaf store. -/
theorem store_null_key_behavior_witness :
    store_delete sLive none = (false, sLive) ∧
      store_add [true, true] sLive none 7 = none ∧
      store_find sLive none = none :=
  ⟨(store_null_key_behavior sLive 7 []).1,
    (store_null_key_behavior sLive 7 []).2.1 (by decide),
    (store_null_key_behavior sLive 7 []).2.2.2 (by simp [sLive]) (by decide)⟩

end CStore

namespace CEvm

/-- C9 counterexample: `evm_initialize` called with zero workers (and every
allocation succeeding) does not return the null handle the claim demands —
the code replaces `nworkers == 0` by 1 and returns a live handle running one
worker. -/
theorem evm_initialize_zero_workers_not_null :
    evm_initialize [] 0 300 = some ⟨1, 300⟩ := rfl

/-- C9 amended: for every maintenance period, initializing the engine with
`N_workers == 0` never aborts; the worker count is clamped to 1 (and a zero
period to 60), and — allocation failures aside — a non-null handle running
one worker is returned. -/
theorem evm_initialize_zero_workers_clamped (mfreq : Nat) :
    evm_initialize [] 0 mfreq = some ⟨1, if mfreq = 0 then 60 else mfreq⟩ := rfl

/-- C4: after `evm_remove_listener` stores NULL into a listener's callback,
every listener of that identity in the list has a null callback; a dispatch
of any later event of the type — over the updated list, possibly extended at
the head by listeners added since — never invokes that listener; and, in
general, a listener whose callback is observed null at fetch time is never
invoked (invariant E1). -/
theorem evm_removed_listener_never_invoked (ls : List MListener) (t : Nat) :
    (∀ x ∈ evm_remove_listener ls t, x.lid = t → x.cb = none) ∧
      (∀ pre : List MListener, (∀ y ∈ pre, y.lid ≠ t) →
        ∀ x ∈ dispatchInvoked (pre ++ evm_remove_listener ls t), x.lid ≠ t) ∧
      (∀ x ∈ ls, x.cb = none → x ∉ dispatchInvoked ls) := by
  refine ⟨?_, ?_, ?_⟩
  · intro x hx hlid
    rcases List.mem_map.mp hx with ⟨y, _, hy⟩
    by_cases h : y.lid = t
    · simp only [h, if_pos] at hy
      rw [← hy]
    · rw [if_neg h] at hy
      exact absurd (hy ▸ hlid) h
  · intro pre hpre x hx
    have hx' := List.mem_of_mem_filter hx
    have hcb : x.cb.isSome := by
      have := List.of_mem_filter hx
      simpa using this
    rcases List.mem_append.mp hx' with h | h
    · exact hpre x h
    · intro hlid
      rcases List.mem_map.mp h with ⟨y, _, hy⟩
      by_cases hyl : y.lid = t
      · simp only [hyl, if_pos] at hy
        rw [← hy] at hcb
        simp at hcb
      · rw [if_neg hyl] at hy
        exact hyl (hy ▸ hlid)
  · intro x _ hxcb hmem
    have := List.of_mem_filter hmem
    rw [hxcb] at this
    simp at this

/-- C4 witness: a two-listener list where listener 2 is removed. -/
theorem evm_removed_listener_never_invoked_witness :
    (∀ x ∈ evm_remove_listener [⟨1, some 10⟩, ⟨2, some 20⟩] 2, x.lid = 2 → x.cb = none) ∧
      (∀ x ∈ dispatchInvoked ([⟨3, some 30⟩] ++
          evm_remove_listener [⟨1, some 10⟩, ⟨2, some 20⟩] 2), x.lid ≠ 2) ∧
      ((⟨2, none⟩ : MListener) ∉ dispatchInvoked [⟨1, some 10⟩, ⟨2, none⟩]) :=
  ⟨(evm_removed_listener_never_invoked [⟨1, some 10⟩, ⟨2, some 20⟩] 2).1,
    (evm_removed_listener_never_invoked [⟨1, some 10⟩, ⟨2, some 20⟩] 2).2.1
      [⟨3, some 30⟩] (by decide),
    (evm_removed_listener_never_invoked [⟨1, some 10⟩, ⟨2, none⟩] 2).2.2
      ⟨2, none⟩ (by decide) rfl⟩

/-- C10: each queue operation preserves the FIFO invariant — head pointer
null exactly when the tail pointer is null, tail designating the last chain
node — and behaves as a FIFO: the pushes attach the new node at the tail of
the chain and the pops remove and return the head of the chain. -/
theorem evm_queue_ops_fifo (q : EvmFifo) (x : Nat) (hq : fifoWF q) :
    (evm_ctx_push_session q (some x)).1 = some x ∧
      fifoWF (evm_ctx_push_session q (some x)).2 ∧
      (evm_ctx_push_session q (some x)).2.chain = q.chain ++ [x] ∧
      (evm_ctx_pop_session q).1 = q.chain.head? ∧
      fifoWF (evm_ctx_pop_session q).2 ∧
      (evm_ctx_pop_session q).2.chain = q.chain.tail ∧
      (evm_session_pop_grp q).1 = q.chain.head? ∧
      fifoWF (evm_session_pop_grp q).2 ∧
      (evm_session_pop_grp q).2.chain = q.chain.tail ∧
      (evm_grp_push_event q (some x)).1 = some x ∧
      fifoWF (evm_grp_push_event q (some x)).2 ∧
      (evm_grp_push_event q (some x)).2.chain = q.chain ++ [x] := by
  obtain ⟨chain, tailp⟩ := q
  obtain ⟨h1, h2⟩ := hq
  simp only [EvmFifo.chain, EvmFifo.tailp] at h1 h2
  cases chain with
  | nil =>
    have ht : tailp = none := by simpa using h2
    subst ht
    refine ⟨rfl, ?_, rfl, rfl, ?_, rfl, rfl, ?_, rfl, rfl, ?_, rfl⟩ <;>
      simp [evm_ctx_push_session, evm_ctx_pop_session, evm_session_pop_grp,
        evm_grp_push_event, fifoWF]
  | cons h rest =>
    have ht : tailp = (h :: rest).getLast? := h2
    have hts : tailp.isSome := by
      rw [ht]
      cases rest <;> simp [List.getLast?]
    obtain ⟨tv, htv⟩ := Option.isSome_iff_exists.mp hts
    subst htv
    have hpush : fifoWF ⟨(h :: rest) ++ [x], some x⟩ := by
      refine ⟨by simp, ?_⟩
      show some x = ((h :: rest) ++ [x]).getLast?
      exact (List.getLast?_concat _).symm
    have hpop : fifoWF ⟨rest, if rest.isEmpty then none else some tv⟩ := by
      cases rest with
      | nil => exact ⟨by simp, by simp⟩
      | cons y t =>
        refine ⟨by simp, ?_⟩
        have hh : some tv = (y :: t).getLast? := by
          rw [ht, List.getLast?_cons_cons]
        simpa using hh
    exact ⟨rfl, hpush, rfl, rfl, hpop, rfl, rfl, hpop, rfl, rfl, hpush, rfl⟩

end CEvm

namespace CStore

/-- Ceiling division bound: one more node after descending one level of `B`
bits stays within the ceiling of the remaining bit budget. -/
theorem count_div_step (R B c : Nat) (hB : 0 < B) (hR : 1 ≤ R)
    (hc : c ≤ (R - B + B - 1) / B) : c + 1 ≤ (R + B - 1) / B := by
  rcases le_or_lt R B with h | h
  · have h0 : R - B = 0 := by omega
    have h1 : (R - B + B - 1) / B = 0 := by
      rw [h0]
      exact Nat.div_eq_of_lt (by omega)
    have h2 : 1 ≤ (R + B - 1) / B := by
      rw [Nat.le_div_iff_mul_le hB]
      omega
    omega
  · have h0 : R - B + B - 1 = R - 1 := by omega
    have h1 : R + B - 1 = R - 1 + B := by omega
    rw [h0] at hc
    rw [h1, Nat.add_div_right _ hB]
    omega

/-- The descent loop of `find_node` visits at most `ceil((8K - index) / B)`
nodes below the current level. -/
theorem findLoop_count_le (K B : Nat) (key : List Nat) (hB : 0 < B) :
    ∀ (fuel : Nat) (l : List Elem) (index : Nat),
      (findLoop K B key fuel l index).2 ≤ (8 * K - index + B - 1) / B := by
  intro fuel
  induction fuel with
  | zero =>
    intro l index
    simp [findLoop]
  | succ n ih =>
    intro l index
    by_cases he : l.isEmpty
    · simp [findLoop, he]
    · by_cases hidx : 8 * K ≤ index
      · simp [findLoop, he, hidx]
      · have hR : 1 ≤ 8 * K - index := by omega
        rcases hscan : scanIdx (get_bits key index B) l with _ | ⟨i, t⟩
        · simp [findLoop, he, hidx, hscan]
        · by_cases hch : t.children.isEmpty
          · simp only [findLoop, he, hidx, hscan, hch, if_false, if_true,
              Bool.false_eq_true, if_neg, ite_true, ite_false]
            have h2 : 1 ≤ (8 * K - index + B - 1) / B := by
              rw [Nat.le_div_iff_mul_le hB]
              omega
            simpa using h2
          · have hrec := ih t.children (index + B)
            have hsub : 8 * K - (index + B) = 8 * K - index - B := by omega
            rw [hsub] at hrec
            rcases hfl : findLoop K B key n t.children (index + B) with ⟨res, c⟩
            rw [hfl] at hrec
            have hstep := count_div_step (8 * K - index) B c hB hR hrec
            cases res <;>
              simp only [findLoop, he, hidx, hscan, hch, hfl, Bool.false_eq_true,
                ite_false, ite_true] <;>
              simpa using hstep

/-- C7: for any key, `store_find`'s `find_node` descent visits at most
`ceil(8K / B) + 1` nodes (the matched node of each level plus the root
sentinel), for a store created with a slice width of at least one bit. -/
theorem store_find_traversal_bound (s : Store) (key : List Nat) (hB : 0 < s.bits) :
    findCount s key ≤ (8 * s.keySize + s.bits - 1) / s.bits + 1 := by
  have h := findLoop_count_le s.keySize s.bits key hB (8 * s.keySize + 1) s.children 0
  rw [Nat.sub_zero] at h
  exact Nat.add_le_add_right h 1

/-- C7 witness at the one-leaf store (`K = 1`, `B = 8`): the bound is
`ceil(8/8) + 1 = 2`. -/
theorem store_find_traversal_bound_witness :
    0 < sLive.bits ∧ findCount sLive [0xAB] ≤ (8 * sLive.keySize + sLive.bits - 1) / sLive.bits + 1 :=
  ⟨by decide, store_find_traversal_bound sLive [0xAB] (by decide)⟩

end CStore

namespace CEvm

end CEvm

namespace CStore

/-- Field computation lemmas for the node constructors. -/
theorem setDlist_id (e : Elem) : e.setDlist.id = e.id := by
  cases e
  rfl

theorem setDlist_dlist (e : Elem) : e.setDlist.dlist = true := by
  cases e
  rfl

theorem withChildren_id (e : Elem) (c : List Elem) : (e.withChildren c).id = e.id := by
  cases e
  rfl

theorem withChildren_dlist (e : Elem) (c : List Elem) : (e.withChildren c).dlist = e.dlist := by
  cases e
  rfl

theorem withChildren_children (e : Elem) (c : List Elem) : (e.withChildren c).children = c := by
  cases e
  rfl

/-- A successful sibling scan returns the element at the reported position,
with a matching id and a clear delete flag. -/
theorem scanIdx_spec (slice : Nat) :
    ∀ (l : List Elem) (i : Nat) (e : Elem), scanIdx slice l = some (i, e) →
      l[i]? = some e ∧ e.id = slice ∧ e.dlist = false := by
  intro l
  induction l with
  | nil =>
    intro i e h
    simp [scanIdx] at h
  | cons a t ih =>
    intro i e h
    by_cases ha : a.id = slice ∧ a.dlist = false
    · rw [scanIdx, if_pos ha] at h
      have hi : 0 = i := congrArg (fun o => (o.getD (0, a)).1) h
      have he : a = e := congrArg (fun o => (o.getD (0, a)).2) h
      subst hi
      subst he
      exact ⟨by simp, ha⟩
    · rw [scanIdx, if_neg ha] at h
      rcases hs : scanIdx slice t with _ | ⟨j, f⟩
      · rw [hs] at h
        simp at h
      · rw [hs] at h
        simp only [Option.map_some'] at h
        have hi : j + 1 = i := congrArg (fun o => (o.getD (0, a)).1) h
        have he : f = e := congrArg (fun o => (o.getD (0, a)).2) h
        subst he
        obtain ⟨h1, h2, h3⟩ := ih j f hs
        subst hi
        exact ⟨by simpa using h1, h2, h3⟩

/-- The sibling scan returns the first live match: every earlier position
fails the match condition. -/
theorem scanIdx_first (slice : Nat) :
    ∀ (l : List Elem) (i : Nat) (e : Elem), scanIdx slice l = some (i, e) →
      ∀ (j : Nat) (f : Elem), j < i → l[j]? = some f →
        ¬(f.id = slice ∧ f.dlist = false) := by
  intro l
  induction l with
  | nil =>
    intro i e h
    simp [scanIdx] at h
  | cons a t ih =>
    intro i e h j f hj hf
    by_cases ha : a.id = slice ∧ a.dlist = false
    · rw [scanIdx, if_pos ha] at h
      have hi : 0 = i := congrArg (fun o => (o.getD (0, a)).1) h
      omega
    · rw [scanIdx, if_neg ha] at h
      rcases hs : scanIdx slice t with _ | ⟨j', f'⟩
      · rw [hs] at h
        simp at h
      · rw [hs] at h
        simp only [Option.map_some'] at h
        have hi : j' + 1 = i := congrArg (fun o => (o.getD (0, a)).1) h
        cases j with
        | zero =>
          have haf : a = f := by simpa using hf
          exact haf ▸ ha
        | succ k =>
          have hk : t[k]? = some f := by simpa using hf
          exact ih j' f' hs k f (by omega) hk

/-- The sibling scan fails when no element matches. -/
theorem scanIdx_eq_none (slice : Nat) :
    ∀ l : List Elem, (∀ e ∈ l, ¬(e.id = slice ∧ e.dlist = false)) →
      scanIdx slice l = none := by
  intro l
  induction l with
  | nil => intro _; rfl
  | cons a t ih =>
    intro h
    rw [scanIdx, if_neg (h a (List.mem_cons_self a t)),
      ih (fun e he => h e (List.mem_cons_of_mem a he))]
    rfl

/-- Updating position `i` is visible at position `i`. -/
theorem modifyIdx_getElem?_self :
    ∀ (l : List Elem) (i : Nat) (f : Elem → Elem) (e : Elem),
      l[i]? = some e → (modifyIdx l i f)[i]? = some (f e) := by
  intro l
  induction l with
  | nil =>
    intro i f e h
    simp at h
  | cons a t ih =>
    intro i f e h
    cases i with
    | zero =>
      have haE : a = e := by simpa using h
      subst haE
      simp [modifyIdx]
    | succ k =>
      have hk : t[k]? = some e := by simpa using h
      simpa [modifyIdx] using ih k f e hk

/-- Updating position `i` leaves every other position unchanged. -/
theorem modifyIdx_getElem?_ne :
    ∀ (l : List Elem) (i j : Nat) (f : Elem → Elem), j ≠ i →
      (modifyIdx l i f)[j]? = l[j]? := by
  intro l
  induction l with
  | nil =>
    intro i j f _
    cases i <;> rfl
  | cons a t ih =>
    intro i j f hne
    cases i with
    | zero =>
      cases j with
      | zero => exact absurd rfl hne
      | succ k => rfl
    | succ m =>
      cases j with
      | zero => simp [modifyIdx]
      | succ k => simpa [modifyIdx] using ih m k f (by omega)

/-- `modifyIdx` preserves emptiness. -/
theorem modifyIdx_isEmpty (l : List Elem) (i : Nat) (f : Elem → Elem) :
    (modifyIdx l i f).isEmpty = l.isEmpty := by
  cases l <;> cases i <;> rfl

/-- `modifyIdx` preserves length. -/
theorem modifyIdx_length :
    ∀ (l : List Elem) (i : Nat) (f : Elem → Elem), (modifyIdx l i f).length = l.length := by
  intro l
  induction l with
  | nil =>
    intro i f
    rfl
  | cons a t ih =>
    intro i f
    cases i with
    | zero => rfl
    | succ k => simpa [modifyIdx] using ih k f

/-- Rewriting the found element without touching its id or delete flag does
not change the scan's outcome. -/
theorem scanIdx_modify (slice : Nat) :
    ∀ (l : List Elem) (i : Nat) (e : Elem) (f : Elem → Elem),
      scanIdx slice l = some (i, e) → (f e).id = e.id → (f e).dlist = e.dlist →
      scanIdx slice (modifyIdx l i f) = some (i, f e) := by
  intro l
  induction l with
  | nil =>
    intro i e f h
    simp [scanIdx] at h
  | cons a t ih =>
    intro i e f h hid hdl
    by_cases ha : a.id = slice ∧ a.dlist = false
    · rw [scanIdx, if_pos ha] at h
      have hi : 0 = i := congrArg (fun o => (o.getD (0, a)).1) h
      have he : a = e := congrArg (fun o => (o.getD (0, a)).2) h
      subst hi
      subst he
      show scanIdx slice (f a :: t) = some (0, f a)
      rw [scanIdx, if_pos (by rw [hid, hdl]; exact ha)]
    · rw [scanIdx, if_neg ha] at h
      rcases hs : scanIdx slice t with _ | ⟨j, f'⟩
      · rw [hs] at h
        simp at h
      · rw [hs] at h
        simp only [Option.map_some'] at h
        have hi : j + 1 = i := congrArg (fun o => (o.getD (0, a)).1) h
        have he : f' = e := congrArg (fun o => (o.getD (0, a)).2) h
        subst he
        subst hi
        show scanIdx slice (a :: modifyIdx t j f) = some (j + 1, f f')
        rw [scanIdx, if_neg ha, ih j f' f hs hid hdl]
        rfl

/-- `setDlistAt` preserves emptiness of the top-level list. -/
theorem setDlistAt_isEmpty (l : List Elem) (p : List Nat) :
    (setDlistAt l p).isEmpty = l.isEmpty := by
  cases p with
  | nil => rfl
  | cons i q => exact modifyIdx_isEmpty l i _

/-- A childless-match result of the descent designates a childless node that
is not on the delete list. -/
theorem findLoop_exact_spec (K B : Nat) (key : List Nat) :
    ∀ (fuel : Nat) (l : List Elem) (index : Nat) (p : List Nat),
      (findLoop K B key fuel l index).1 = .exact p →
      ∃ n, nodeAt l p = some n ∧ n.children = [] ∧ n.dlist = false := by
  intro fuel
  induction fuel with
  | zero =>
    intro l index p h
    simp [findLoop] at h
  | succ m ih =>
    intro l index p h
    by_cases he : l.isEmpty
    · simp [findLoop, he] at h
    · by_cases hidx : 8 * K ≤ index
      · simp [findLoop, he, hidx] at h
      · rcases hscan : scanIdx (get_bits key index B) l with _ | ⟨i, t⟩
        · simp [findLoop, he, hidx, hscan] at h
        · obtain ⟨hget, hid, hdl⟩ := scanIdx_spec _ l i t hscan
          by_cases hch : t.children.isEmpty
          · simp [findLoop, he, hidx, hscan, hch] at h
            subst h
            exact ⟨t, by simp [nodeAt, hget], List.isEmpty_iff.mp hch, hdl⟩
          · rcases hfl : findLoop K B key m t.children (index + B) with ⟨res, c⟩
            cases res with
            | toRoot => simp [findLoop, he, hidx, hscan, hch, hfl] at h
            | ret q => simp [findLoop, he, hidx, hscan, hch, hfl] at h
            | exact q =>
              simp only [findLoop, he, hidx, hscan, hch, hfl] at h
              simp at h
              subst h
              obtain ⟨n, hn, hc, hd⟩ := ih t.children (index + B) q (by rw [hfl])
              refine ⟨n, ?_, hc, hd⟩
              cases q with
              | nil => exact absurd hn (by simp [nodeAt])
              | cons x xs => simpa [nodeAt, hget] using hn

/-- An ancestor-return result with a non-empty path designates a node that
still has children. -/
theorem findLoop_ret_spec (K B : Nat) (key : List Nat) :
    ∀ (fuel : Nat) (l : List Elem) (index : Nat) (q : List Nat),
      (findLoop K B key fuel l index).1 = .ret q → q ≠ [] →
      ∃ n, nodeAt l q = some n ∧ n.children ≠ [] := by
  intro fuel
  induction fuel with
  | zero =>
    intro l index q h _
    simp [findLoop] at h
  | succ m ih =>
    intro l index q h hq
    by_cases he : l.isEmpty
    · simp [findLoop, he] at h
    · by_cases hidx : 8 * K ≤ index
      · simp [findLoop, he, hidx] at h
      · rcases hscan : scanIdx (get_bits key index B) l with _ | ⟨i, t⟩
        · simp [findLoop, he, hidx, hscan] at h
          exact absurd h hq
        · obtain ⟨hget, _, _⟩ := scanIdx_spec _ l i t hscan
          by_cases hch : t.children.isEmpty
          · simp [findLoop, he, hidx, hscan, hch] at h
          · rcases hfl : findLoop K B key m t.children (index + B) with ⟨res, c⟩
            cases res with
            | toRoot => simp [findLoop, he, hidx, hscan, hch, hfl] at h
            | ret q' =>
              simp only [findLoop, he, hidx, hscan, hch, hfl] at h
              simp at h
              subst h
              cases q' with
              | nil =>
                refine ⟨t, by simp [nodeAt, hget], ?_⟩
                intro hcc
                rw [hcc] at hch
                exact hch rfl
              | cons x xs =>
                obtain ⟨n, hn, hc⟩ := ih t.children (index + B) (x :: xs) (by rw [hfl]) (by simp)
                exact ⟨n, by simpa [nodeAt, hget] using hn, hc⟩
            | exact q' => simp [findLoop, he, hidx, hscan, hch, hfl] at h

/-- Inversion of `WfL`: the level itself satisfies `liveOk`. -/
theorem WfL.live {l : List Elem} (h : WfL l) : liveOk l := by
  cases h with
  | mk _ h1 _ => exact h1

/-- Inversion of `WfL`: every child list is well-formed. -/
theorem WfL.sub {l : List Elem} (h : WfL l) : ∀ e ∈ l, WfL e.children := by
  cases h with
  | mk _ _ h2 => exact h2

/-- Flagging the childless node the descent found makes the same descent
return its parent: the sibling scan of the final level skips the flagged
node, and — by the per-level uniqueness of live ids — finds no other live
match. -/
theorem findLoop_flag (K B : Nat) (key : List Nat) :
    ∀ (fuel : Nat) (l : List Elem) (index : Nat) (p : List Nat),
      WfL l → (findLoop K B key fuel l index).1 = .exact p →
      (findLoop K B key fuel (setDlistAt l p) index).1 = .ret p.dropLast := by
  intro fuel
  induction fuel with
  | zero =>
    intro l index p _ h
    simp [findLoop] at h
  | succ m ih =>
    intro l index p hwf h
    have hlive := hwf.live
    have hchild := hwf.sub
    by_cases he : l.isEmpty
    · simp [findLoop, he] at h
    · by_cases hidx : 8 * K ≤ index
      · simp [findLoop, he, hidx] at h
      · rcases hscan : scanIdx (get_bits key index B) l with _ | ⟨i, t⟩
        · simp [findLoop, he, hidx, hscan] at h
        · obtain ⟨hget, hid, hdl⟩ := scanIdx_spec _ l i t hscan
          by_cases hch : t.children.isEmpty
          · simp [findLoop, he, hidx, hscan, hch] at h
            subst h
            have hlen : i < l.length := (List.getElem?_eq_some.mp hget).1
            have hnone : scanIdx (get_bits key index B) (setDlistAt l [i]) = none := by
              apply scanIdx_eq_none
              intro e' he'
              obtain ⟨j, hj⟩ := List.mem_iff_getElem?.mp he'
              rcases Nat.lt_trichotomy j i with hji | hji | hji
              · rw [show setDlistAt l [i] = modifyIdx l i Elem.setDlist from rfl,
                  modifyIdx_getElem?_ne l i j _ (by omega)] at hj
                exact scanIdx_first _ l i t hscan j e' hji hj
              · subst hji
                rw [show setDlistAt l [j] = modifyIdx l j Elem.setDlist from rfl,
                  modifyIdx_getElem?_self l j _ t hget] at hj
                intro hmatch
                have : e'.dlist = true := by
                  have hje : t.setDlist = e' := by simpa using hj
                  rw [← hje, setDlist_dlist]
                rw [this] at hmatch
                exact absurd hmatch.2 (by simp)
              · rw [show setDlistAt l [i] = modifyIdx l i Elem.setDlist from rfl,
                  modifyIdx_getElem?_ne l i j _ (by omega)] at hj
                obtain ⟨hjlen, hjget⟩ := List.getElem?_eq_some.mp hj
                have hpair := List.pairwise_iff_getElem.mp hlive i j hlen hjlen hji
                rw [(List.getElem?_eq_some.mp hget).2, hjget] at hpair
                intro hmatch
                exact hpair hdl hmatch.2 (by rw [hid, hmatch.1])
            have hne : (setDlistAt l [i]).isEmpty = false := by
              rw [setDlistAt_isEmpty]
              cases hee : l.isEmpty
              · rfl
              · exact absurd hee he
            simp [findLoop, hne, hidx, hnone]
          · rcases hfl : findLoop K B key m t.children (index + B) with ⟨res, c⟩
            cases res with
            | toRoot => simp [findLoop, he, hidx, hscan, hch, hfl] at h
            | ret q => simp [findLoop, he, hidx, hscan, hch, hfl] at h
            | exact q =>
              simp only [findLoop, he, hidx, hscan, hch, hfl] at h
              simp at h
              subst h
              have hq : q ≠ [] := by
                obtain ⟨n, hn, -, -⟩ := findLoop_exact_spec K B key m t.children (index + B) q (by rw [hfl])
                intro hqe
                rw [hqe] at hn
                simp [nodeAt] at hn
              have hset : setDlistAt l (i :: q)
                  = modifyIdx l i (fun n => n.withChildren (setDlistAt n.children q)) := by
                cases q with
                | nil => exact absurd rfl hq
                | cons x xs => rfl
              have hscan' :
                  scanIdx (get_bits key index B) (setDlistAt l (i :: q))
                    = some (i, t.withChildren (setDlistAt t.children q)) := by
                rw [hset]
                exact scanIdx_modify _ l i t _ hscan (withChildren_id t _) (withChildren_dlist t _)
              have hch' : (setDlistAt t.children q).isEmpty = false := by
                rw [setDlistAt_isEmpty]
                cases hee : t.children.isEmpty
                · rfl
                · exact absurd hee hch
              have hrec := ih t.children (index + B) q
                (hchild t (List.getElem?_mem hget)) (by rw [hfl])
              rcases hfl2 : findLoop K B key m (setDlistAt t.children q) (index + B) with ⟨res2, c2⟩
              rw [hfl2] at hrec
              have hne : (setDlistAt l (i :: q)).isEmpty = false := by
                rw [setDlistAt_isEmpty]
                cases hee : l.isEmpty
                · rfl
                · exact absurd hee he
              have hres2 : res2 = .ret q.dropLast := hrec
              subst hres2
              have hdrop : i :: q.dropLast = (i :: q).dropLast := by
                cases q with
                | nil => exact absurd rfl hq
                | cons x xs => rfl
              simp only [findLoop, hne, hidx, hscan', withChildren_children, hch', hfl2]
              simp [hdrop]

/-- C5: for a well-formed store (at most one live node per id in each
sibling list, as sequential execution maintains) holding a live leaf with
key `key` — i.e. `find_node` reaches a childless live node whose key
matches — `store_delete key` returns `true`, and an immediately repeated
`store_delete key` returns `false` and leaves the store unchanged: the
descent now skips the flagged leaf, no other live match exists at its level,
and `find_node` surfaces an ancestor that still has children (or the root),
which fails the delete conditions. -/
theorem store_delete_idempotent (s : Store) (key : List Nat) (p : List Nat) (n : Elem)
    (hwf : WfL s.children)
    (hfind : findRes s key = .exact p)
    (hn : nodeAt s.children p = some n)
    (hkey : n.key = key) :
    (store_delete s (some key)).1 = true ∧
      store_delete (store_delete s (some key)).2 (some key)
        = (false, (store_delete s (some key)).2) := by
  obtain ⟨n', hn', hc, hd⟩ :=
    findLoop_exact_spec s.keySize s.bits key (8 * s.keySize + 1) s.children 0 p hfind
  have heq : n = n' := Option.some.inj (hn.symm.trans hn')
  subst heq
  have hcond : (n.children.isEmpty ∧ n.key = key) := ⟨by rw [hc]; rfl, hkey⟩
  have h1 : store_delete s (some key)
      = (true, ⟨setDlistAt s.children p, s.keySize, s.bits, s.olistKeys,
          key :: s.dlistKeys⟩) := by
    simp only [store_delete, hfind, resPath, hn]
    rw [if_pos hcond, hd]
    rfl
  have hflag : (findLoop s.keySize s.bits key (8 * s.keySize + 1)
      (setDlistAt s.children p) 0).1 = .ret p.dropLast :=
    findLoop_flag s.keySize s.bits key (8 * s.keySize + 1) s.children 0 p hwf hfind
  refine ⟨by rw [h1], ?_⟩
  rw [h1]
  show store_delete
      (⟨setDlistAt s.children p, s.keySize, s.bits, s.olistKeys, key :: s.dlistKeys⟩ : Store)
      (some key) = _
  cases hdl : p.dropLast with
  | nil =>
    have hres : findRes
        (⟨setDlistAt s.children p, s.keySize, s.bits, s.olistKeys, key :: s.dlistKeys⟩ : Store)
        key = .ret [] := by
      show (findLoop s.keySize s.bits key (8 * s.keySize + 1) (setDlistAt s.children p) 0).1
        = .ret []
      rw [hflag, hdl]
    simp only [store_delete, hres, resPath]
  | cons x xs =>
    have hres : findRes
        (⟨setDlistAt s.children p, s.keySize, s.bits, s.olistKeys, key :: s.dlistKeys⟩ : Store)
        key = .ret (x :: xs) := by
      show (findLoop s.keySize s.bits key (8 * s.keySize + 1) (setDlistAt s.children p) 0).1
        = .ret (x :: xs)
      rw [hflag, hdl]
    obtain ⟨m, hm, hmc⟩ := findLoop_ret_spec s.keySize s.bits key (8 * s.keySize + 1)
      (setDlistAt s.children p) 0 (x :: xs) (by rw [hflag, hdl]) (by simp)
    have hmce : m.children.isEmpty = false := by
      cases hmm : m.children with
      | nil => exact absurd hmm hmc
      | cons _ _ => rfl
    simp only [store_delete, hres, resPath, hm]
    rw [if_neg]
    intro hcond2
    rw [hmce] at hcond2
    exact absurd hcond2.1 (by simp)

/-- C5 witness: the one-leaf store with key `AB`. -/
theorem store_delete_idempotent_witness :
    (store_delete sLive (some [0xAB])).1 = true ∧
      store_delete (store_delete sLive (some [0xAB])).2 (some [0xAB])
        = (false, (store_delete sLive (some [0xAB])).2) :=
  store_delete_idempotent sLive [0xAB] [0] (Elem.mk 0xAB false true [0xAB] 5 [])
    (WfL.mk _ (List.pairwise_singleton _ _) (by
      intro e he
      have heq : e = Elem.mk 0xAB false true [0xAB] 5 [] := by simpa [sLive] using he
      rw [heq]
      exact WfL.mk _ List.Pairwise.nil (by intro e' he'; simp [Elem.children] at he')))
    rfl rfl rfl

end CStore

namespace CEvm

/-- C10 witness: a two-node queue with a consistent tail. -/
theorem evm_queue_ops_fifo_witness :
    fifoWF ⟨[1, 2], some 2⟩ ∧
      (evm_ctx_push_session ⟨[1, 2], some 2⟩ (some 3)).2.chain = [1, 2, 3] ∧
      (evm_ctx_pop_session (⟨[1, 2], some 2⟩ : EvmFifo)).1 = some 1 :=
  ⟨by constructor <;> simp [List.getLast?],
    (evm_queue_ops_fifo ⟨[1, 2], some 2⟩ 3
      (by constructor <;> simp [List.getLast?])).2.2.1,
    (evm_queue_ops_fifo ⟨[1, 2], some 2⟩ 3
      (by constructor <;> simp [List.getLast?])).2.2.2.1⟩

/-- Appending event batches composes. -/
theorem appendAll_append (s : MSession) (us vs : List Nat) :
    appendAll (appendAll s us) vs = appendAll s (us ++ vs) := by
  simp [appendAll, List.foldl_append]

/-- On a session with a single group, every append lands at the tail of that
group's event queue. -/
theorem appendAll_single (D : Nat) (evs : List MEvent) (us : List Nat) :
    appendAll ⟨[⟨D, evs⟩]⟩ us = ⟨[⟨D, evs ++ us.map mkEv⟩]⟩ := by
  induction us generalizing evs with
  | nil => simp [appendAll]
  | cons u t ih =>
    have h1 : appendToBack ⟨[⟨D, evs⟩]⟩ u = ⟨[⟨D, evs ++ [mkEv u]⟩]⟩ := by
      simp [appendToBack, mkEv]
    show appendAll (appendToBack ⟨[⟨D, evs⟩]⟩ u) t = _
    rw [h1, ih (evs ++ [mkEv u])]
    simp

/-- A group of events none of which halts is processed completely: its trace
is `genTrace`, every append lands in the session, and `run` stays true. -/
theorem processEvents_noHalt (ap : Nat → List Nat) (hs : Nat → Bool) (d : Nat) :
    ∀ (es : List MEvent) (s : MSession), (∀ e ∈ es, hs e.uid = false) →
      processEvents ap hs d es s
        = (genTrace hs d es, appendAll s (childUids ap es), true, []) := by
  intro es
  induction es with
  | nil =>
    intro s _
    simp [processEvents, genTrace, childUids, appendAll]
  | cons e t ih =>
    intro s hh
    have he : hs e.uid = false := hh e (List.mem_cons_self e t)
    simp only [processEvents, evm_dispatch_event, he, Bool.not_false, if_true]
    rw [ih (appendAll s (ap e.uid)) (fun x hx => hh x (List.mem_cons_of_mem _ hx))]
    simp [genTrace, childUids, appendAll_append, he]

/-- One full generation step of the group loop: the single queued group of
depth `d` is processed to `genTrace`, and the loop continues on a session
holding exactly one group of depth `d + 1` whose events are the appended
children in order. -/
theorem processLoop_gen (ap : Nat → List Nat) (hs : Nat → Bool) (f d : Nat)
    (es : List MEvent) (hne : es ≠ []) (hhs : ∀ e ∈ es, hs e.uid = false) :
    processLoop ap hs (f + 1) ⟨[⟨d, es⟩]⟩
      = (genTrace hs d es ++ [.grpDestroy d]
          ++ (processLoop ap hs f ⟨[⟨d + 1, (childUids ap es).map mkEv⟩]⟩).1,
         (processLoop ap hs f ⟨[⟨d + 1, (childUids ap es).map mkEv⟩]⟩).2) := by
  have hee : es.isEmpty = false := by
    cases es with
    | nil => exact absurd rfl hne
    | cons _ _ => rfl
  have hpe := processEvents_noHalt ap hs d es ⟨[⟨d + 1, []⟩]⟩ hhs
  simp only [processLoop, hee, Bool.false_eq_true, if_false, List.nil_append, hpe,
    appendAll_single, List.map_nil, List.append_nil]
  rcases hfl : processLoop ap hs f ⟨[⟨d + 1, (childUids ap es).map mkEv⟩]⟩ with ⟨tr', s'⟩
  simp

/-- Appending an event does not change the depths of the session's groups. -/
theorem appendToBack_depths (s : MSession) (u : Nat) :
    (appendToBack s u).grps.map (fun g => g.depth) = s.grps.map (fun g => g.depth) := by
  unfold appendToBack
  rcases hl : s.grps.getLast? with _ | g
  · rfl
  · have hne : s.grps ≠ [] := by
      intro h
      rw [h] at hl
      simp at hl
    have hg : s.grps.getLast hne = g := by
      rw [List.getLast?_eq_getLast _ hne] at hl
      exact Option.some.inj hl
    have hsplit : s.grps.dropLast ++ [g] = s.grps := by
      rw [← hg]
      exact List.dropLast_append_getLast hne
    show (s.grps.dropLast ++ [(⟨g.depth, g.events ++ [⟨u, false⟩]⟩ : MGrp)]).map (fun g => g.depth)
      = s.grps.map (fun g => g.depth)
    conv_rhs => rw [← hsplit]
    simp

/-- Batch appends do not change group depths. -/
theorem appendAll_depths (s : MSession) (us : List Nat) :
    (appendAll s us).grps.map (fun g => g.depth) = s.grps.map (fun g => g.depth) := by
  induction us generalizing s with
  | nil => rfl
  | cons u t ih =>
    show (appendAll (appendToBack s u) t).grps.map _ = _
    rw [ih (appendToBack s u), appendToBack_depths]

/-- Processing a group's events does not change the session's group
depths. -/
theorem processEvents_depths (ap : Nat → List Nat) (hs : Nat → Bool) (d : Nat) :
    ∀ (es : List MEvent) (s : MSession),
      (processEvents ap hs d es s).2.1.grps.map (fun g => g.depth)
        = s.grps.map (fun g => g.depth) := by
  intro es
  induction es with
  | nil =>
    intro s
    rfl
  | cons e t ih =>
    intro s
    by_cases he : hs e.uid
    · simp [processEvents, evm_dispatch_event, he, appendAll_depths]
    · simp only [processEvents, evm_dispatch_event, Bool.not_eq_true] at he ⊢
      rw [he]
      simp only [Bool.not_false, if_true]
      rcases hpe : processEvents ap hs d t (appendAll s (ap e.uid)) with ⟨tr, s2, run2, rem⟩
      have := ih (appendAll s (ap e.uid))
      rw [hpe] at this
      simpa [appendAll_depths] using this

/-- Every generation action emitted while processing a depth-`d` group sits
at depth `d` (destroy actions carry no depth). -/
theorem processEvents_trace_depth (ap : Nat → List Nat) (hs : Nat → Bool) (D d : Nat)
    (hD : D ≤ d) :
    ∀ (es : List MEvent) (s : MSession) (a : EvAction),
      a ∈ (processEvents ap hs d es s).1 → depthOK D a := by
  intro es
  induction es with
  | nil =>
    intro s a ha
    simp [processEvents] at ha
  | cons e t ih =>
    intro s a ha
    by_cases he : hs e.uid
    · simp [processEvents, evm_dispatch_event, he] at ha
      rcases ha with h | h | h <;> subst h <;> simp [depthOK, hD]
    · simp only [processEvents, evm_dispatch_event, Bool.not_eq_true] at he ha
      rw [he] at ha
      simp only [Bool.not_false, if_true] at ha
      rcases hpe : processEvents ap hs d t (appendAll s (ap e.uid)) with ⟨tr, s2, run2, rem⟩
      rw [hpe] at ha
      simp at ha
      rcases ha with h | h | h | h
      · subst h; simp [depthOK, hD]
      · subst h; simp [depthOK, hD]
      · subst h; simp [depthOK]
      · exact ih (appendAll s (ap e.uid)) a (by rw [hpe]; exact h)

/-- Depth transfer through an equality of depth lists. -/
theorem depths_le_of_map_eq (l1 l2 : List MGrp) (D : Nat)
    (hm : l1.map (fun g => g.depth) = l2.map (fun g => g.depth))
    (h : ∀ g ∈ l2, D ≤ g.depth) : ∀ g ∈ l1, D ≤ g.depth := by
  intro g hg
  have h1 : g.depth ∈ l1.map (fun g => g.depth) := List.mem_map_of_mem _ hg
  rw [hm] at h1
  obtain ⟨g', hg', he⟩ := List.mem_map.mp h1
  exact he ▸ h g' hg'

/-- The group loop on a session whose groups all sit at depth `D` or deeper
emits only actions at depth `D` or deeper and leaves only such groups. -/
theorem processLoop_depth (ap : Nat → List Nat) (hs : Nat → Bool) :
    ∀ (fuel : Nat) (s : MSession) (D : Nat), (∀ g ∈ s.grps, D ≤ g.depth) →
      (∀ a ∈ (processLoop ap hs fuel s).1, depthOK D a) ∧
      (∀ g ∈ (processLoop ap hs fuel s).2.grps, D ≤ g.depth) := by
  intro fuel
  induction fuel with
  | zero =>
    intro s D hD
    exact ⟨by intro a ha; simp [processLoop] at ha, hD⟩
  | succ f ih =>
    intro s D hD
    rcases hsg : s.grps with _ | ⟨g, gs⟩
    · constructor
      · intro a ha
        simp [processLoop, hsg] at ha
      · intro g' hg'
        simp only [processLoop, hsg] at hg'
        exact hD g' (by rw [hsg]; exact hg')
    · have hgD : D ≤ g.depth := hD g (by rw [hsg]; exact List.mem_cons_self g gs)
      have hgsD : ∀ g' ∈ gs, D ≤ g'.depth :=
        fun g' hg' => hD g' (by rw [hsg]; exact List.mem_cons_of_mem g hg')
      by_cases hge : g.events.isEmpty
      · have hrec := ih ⟨gs⟩ D hgsD
        constructor
        · intro a ha
          simp only [processLoop, hsg, hge, if_true] at ha
          rcases hpl : processLoop ap hs f ⟨gs⟩ with ⟨tr, s'⟩
          rw [hpl] at ha
          rcases List.mem_cons.mp ha with h | h
          · subst h; simpa [depthOK] using hgD
          · exact hrec.1 a (by rw [hpl]; exact h)
        · intro g' hg'
          simp only [processLoop, hsg, hge, if_true] at hg'
          rcases hpl : processLoop ap hs f ⟨gs⟩ with ⟨tr, s'⟩
          rw [hpl] at hg'
          exact hrec.2 g' (by rw [hpl]; exact hg')
      · have hs2D : ∀ g' ∈ (⟨gs ++ [⟨g.depth + 1, []⟩]⟩ : MSession).grps, D ≤ g'.depth := by
          intro g' hg'
          rcases List.mem_append.mp hg' with h | h
          · exact hgsD g' h
          · have : g' = ⟨g.depth + 1, []⟩ := by simpa using h
            rw [this]
            show D ≤ g.depth + 1
            omega
        rcases hpe : processEvents ap hs g.depth g.events ⟨gs ++ [⟨g.depth + 1, []⟩]⟩
          with ⟨tr, s3, run, rem⟩
        have hs3D : ∀ g' ∈ s3.grps, D ≤ g'.depth := by
          have hdep := processEvents_depths ap hs g.depth g.events ⟨gs ++ [⟨g.depth + 1, []⟩]⟩
          rw [hpe] at hdep
          exact depths_le_of_map_eq _ _ D hdep hs2D
        have htr : ∀ a ∈ tr, depthOK D a := by
          intro a ha
          exact processEvents_trace_depth ap hs D g.depth hgD g.events
            ⟨gs ++ [⟨g.depth + 1, []⟩]⟩ a (by rw [hpe]; exact ha)
        have htrG : ∀ a ∈ tr ++ rem.map (fun e => EvAction.evDestroy e.uid e.dispatched)
            ++ [EvAction.grpDestroy g.depth], depthOK D a := by
          intro a ha
          rcases List.mem_append.mp ha with h | h
          · rcases List.mem_append.mp h with h' | h'
            · exact htr a h'
            · obtain ⟨x, _, hx⟩ := List.mem_map.mp h'
              rw [← hx]
              trivial
          · have : a = EvAction.grpDestroy g.depth := by simpa using h
            rw [this]
            simpa [depthOK] using hgD
        rcases hrun : run with _ | _
        · constructor
          · intro a ha
            simp only [processLoop, hsg, hge, if_false, hpe, hrun, Bool.false_eq_true] at ha
            exact htrG a (by simpa using ha)
          · intro g' hg'
            simp only [processLoop, hsg, hge, if_false, hpe, hrun, Bool.false_eq_true] at hg'
            exact hs3D g' hg'
        · have hrec := ih s3 D hs3D
          constructor
          · intro a ha
            simp only [processLoop, hsg, hge, if_false, hpe, hrun] at ha
            rcases hpl : processLoop ap hs f s3 with ⟨tr', s''⟩
            rw [hpl] at ha
            rcases List.mem_append.mp ha with h | h
            · exact htrG a h
            · exact hrec.1 a (by rw [hpl]; exact h)
          · intro g' hg'
            simp only [processLoop, hsg, hge, if_false, hpe, hrun] at hg'
            rcases hpl : processLoop ap hs f s3 with ⟨tr', s''⟩
            rw [hpl] at hg'
            exact hrec.2 g' (by rw [hpl]; exact hg')

/-- The listener hand-offs of a fully processed generation are its events'
uids, in queue order. -/
theorem genTrace_dispAt (hs : Nat → Bool) (d : Nat) :
    ∀ es : List MEvent, dispAt d (genTrace hs d es) = es.map (fun e => e.uid) := by
  intro es
  induction es with
  | nil => rfl
  | cons e t ih =>
    have hcons : genTrace hs d (e :: t)
        = [.disp e.uid d, .comp e.uid d (hs e.uid), .evDestroy e.uid true]
          ++ genTrace hs d t := by
      simp [genTrace]
    show (genTrace hs d (e :: t)).filterMap _ = _
    rw [hcons, List.filterMap_append]
    show dispAt d [.disp e.uid d, .comp e.uid d (hs e.uid), .evDestroy e.uid true]
        ++ dispAt d (genTrace hs d t) = _
    rw [ih]
    simp [dispAt]

/-- Same statement for the all-generations projection. -/
theorem genTrace_allDisp (hs : Nat → Bool) (d : Nat) :
    ∀ es : List MEvent, allDisp (genTrace hs d es) = es.map (fun e => e.uid) := by
  intro es
  induction es with
  | nil => rfl
  | cons e t ih =>
    have hcons : genTrace hs d (e :: t)
        = [.disp e.uid d, .comp e.uid d (hs e.uid), .evDestroy e.uid true]
          ++ genTrace hs d t := by
      simp [genTrace]
    show (genTrace hs d (e :: t)).filterMap _ = _
    rw [hcons, List.filterMap_append]
    show allDisp [.disp e.uid d, .comp e.uid d (hs e.uid), .evDestroy e.uid true]
        ++ allDisp (genTrace hs d t) = _
    rw [ih]
    simp [allDisp]

/-- A trace whose generation actions all sit at depth `d + 1` or deeper
contains no hand-off at depth `d`. -/
theorem dispAt_nil_of_depth (d : Nat) (tr : List EvAction)
    (h : ∀ a ∈ tr, depthOK (d + 1) a) : dispAt d tr = [] := by
  refine List.filterMap_eq_nil_iff.mpr ?_
  intro a ha
  cases a with
  | disp u dd =>
    have hdd := h _ ha
    simp only [depthOK] at hdd
    simp only []
    rw [if_neg (by omega)]
  | comp _ _ _ => rfl
  | evDestroy _ _ => rfl
  | grpDestroy _ => rfl
  | sessDestroy => rfl

/-- `evm_destroy_session` performs no dispatch. -/
theorem destroy_no_disp (s : MSession) (u dd : Nat) :
    EvAction.disp u dd ∉ destroySessionTrace s := by
  intro h
  rcases List.mem_append.mp h with h | h
  · obtain ⟨g, _, h2⟩ := List.mem_flatMap.mp h
    rcases List.mem_append.mp h2 with h3 | h3
    · obtain ⟨x, _, hx⟩ := List.mem_map.mp h3
      exact EvAction.noConfusion hx
    · simp at h3
  · simp at h

/-- `evm_destroy_session` reports no `EventComplete`. -/
theorem destroy_no_comp (s : MSession) (u dd : Nat) (b : Bool) :
    EvAction.comp u dd b ∉ destroySessionTrace s := by
  intro h
  rcases List.mem_append.mp h with h | h
  · obtain ⟨g, _, h2⟩ := List.mem_flatMap.mp h
    rcases List.mem_append.mp h2 with h3 | h3
    · obtain ⟨x, _, hx⟩ := List.mem_map.mp h3
      exact EvAction.noConfusion hx
    · simp at h3
  · simp at h

/-- The destroy trace contains no hand-off at any depth. -/
theorem dispAt_destroy (d : Nat) (s : MSession) :
    dispAt d (destroySessionTrace s) = [] := by
  refine List.filterMap_eq_nil_iff.mpr ?_
  intro a ha
  cases a with
  | disp u dd => exact absurd ha (destroy_no_disp s u dd)
  | comp _ _ _ => rfl
  | evDestroy _ _ => rfl
  | grpDestroy _ => rfl
  | sessDestroy => rfl

/-- A generation trace at depth `d` contains no hand-off at another
depth. -/
theorem genTrace_no_disp_ne (hs : Nat → Bool) (d d' : Nat) (hne : d ≠ d') (es : List MEvent) :
    ∀ a ∈ genTrace hs d es, ¬ isDispAt d' a := by
  intro a ha
  have ha' : ∃ e ∈ es, a = EvAction.disp e.uid d ∨ a = EvAction.comp e.uid d (hs e.uid)
      ∨ a = EvAction.evDestroy e.uid true := by
    simpa [genTrace] using ha
  obtain ⟨e, _, hmem⟩ := ha'
  rcases hmem with h | h | h <;> subst h
  · simp only [isDispAt]
    omega
  · simp [isDispAt]
  · simp [isDispAt]

/-- Splitting lemma for `ordered`: if nothing in the suffix satisfies `p`
and nothing in the prefix satisfies `q`, then every `p` action precedes
every `q` action. -/
theorem ordered_split (t1 t2 : List EvAction) (p q : EvAction → Prop)
    (h2 : ∀ a ∈ t2, ¬ p a) (h1 : ∀ a ∈ t1, ¬ q a) : ordered (t1 ++ t2) p q := by
  intro i j hi hj hp hq
  by_cases hilt : i < t1.length
  · by_cases hjlt : j < t1.length
    · exfalso
      have hel : (t1 ++ t2).get (Fin.mk j hj) = t1.get (Fin.mk j hjlt) :=
        List.getElem_append_left hjlt
      refine h1 (t1.get (Fin.mk j hjlt)) (t1.get_mem j hjlt) ?_
      rw [← hel]
      exact hq
    · omega
  · exfalso
    have hge : t1.length ≤ i := Nat.le_of_not_lt hilt
    have hi2 : i - t1.length < t2.length := by
      rw [List.length_append] at hi
      omega
    have hel : (t1 ++ t2).get (Fin.mk i hi) = t2.get (Fin.mk (i - t1.length) hi2) :=
      List.getElem_append_right hge
    refine h2 (t2.get (Fin.mk (i - t1.length) hi2)) (t2.get_mem _ hi2) ?_
    rw [← hel]
    exact hp

/-- C2: in a session processing its generation-`d` group (none of whose
events halts), every event appended by the listeners joins the single back
group, which has depth `d + 1` and holds the appended events in call order;
the loop then continues on exactly that group, so generation `d + 1` events
are dispatched strictly after every generation-`d` event's `EventComplete`;
and within generation `d` the events are handed to listeners in the order
they were appended. -/
theorem evm_session_generation_order (ap : Nat → List Nat) (hs : Nat → Bool) (f d : Nat)
    (es : List MEvent) (hne : es ≠ []) (hhs : ∀ e ∈ es, hs e.uid = false) :
    processLoop ap hs (f + 1) ⟨[⟨d, es⟩]⟩
        = (genTrace hs d es ++ [.grpDestroy d]
            ++ (processLoop ap hs f ⟨[⟨d + 1, (childUids ap es).map mkEv⟩]⟩).1,
           (processLoop ap hs f ⟨[⟨d + 1, (childUids ap es).map mkEv⟩]⟩).2) ∧
      dispAt d (processSession ap hs (f + 1) ⟨[⟨d, es⟩]⟩) = es.map (fun e => e.uid) ∧
      ordered (processSession ap hs (f + 1) ⟨[⟨d, es⟩]⟩) (isCompAt d) (isDispAt (d + 1)) := by
  have hloop := processLoop_gen ap hs f d es hne hhs
  have hdepth := processLoop_depth ap hs f ⟨[⟨d + 1, (childUids ap es).map mkEv⟩]⟩ (d + 1)
    (by
      intro g hg
      have hgeq : g = ⟨d + 1, (childUids ap es).map mkEv⟩ := by simpa using hg
      rw [hgeq])
  have hps : processSession ap hs (f + 1) ⟨[⟨d, es⟩]⟩
      = (genTrace hs d es ++ [.grpDestroy d]
          ++ (processLoop ap hs f ⟨[⟨d + 1, (childUids ap es).map mkEv⟩]⟩).1)
        ++ destroySessionTrace (processLoop ap hs f ⟨[⟨d + 1, (childUids ap es).map mkEv⟩]⟩).2 := by
    unfold processSession
    rw [hloop]
  refine ⟨hloop, ?_, ?_⟩
  · rw [hps]
    show dispAt d ((genTrace hs d es ++ [EvAction.grpDestroy d]
        ++ (processLoop ap hs f ⟨[⟨d + 1, (childUids ap es).map mkEv⟩]⟩).1)
        ++ destroySessionTrace (processLoop ap hs f ⟨[⟨d + 1, (childUids ap es).map mkEv⟩]⟩).2)
      = es.map (fun e => e.uid)
    unfold dispAt
    rw [List.filterMap_append, List.filterMap_append, List.filterMap_append]
    show ((dispAt d (genTrace hs d es) ++ dispAt d [EvAction.grpDestroy d])
        ++ dispAt d (processLoop ap hs f ⟨[⟨d + 1, (childUids ap es).map mkEv⟩]⟩).1)
        ++ dispAt d (destroySessionTrace (processLoop ap hs f ⟨[⟨d + 1, (childUids ap es).map mkEv⟩]⟩).2)
      = es.map (fun e => e.uid)
    rw [genTrace_dispAt, dispAt_nil_of_depth d _ hdepth.1, dispAt_destroy]
    simp [dispAt]
  · rw [hps]
    rw [List.append_assoc (genTrace hs d es ++ [EvAction.grpDestroy d])]
    apply ordered_split
    · intro a ha
      rcases List.mem_append.mp ha with h | h
      · have hda := hdepth.1 a h
        cases a with
        | comp u dd b =>
          simp only [depthOK] at hda
          simp only [isCompAt]
          omega
        | disp _ _ => simp [isCompAt]
        | evDestroy _ _ => simp [isCompAt]
        | grpDestroy _ => simp [isCompAt]
        | sessDestroy => simp [isCompAt]
      · cases a with
        | comp u dd b => exact absurd h (destroy_no_comp _ u dd b)
        | disp _ _ => simp [isCompAt]
        | evDestroy _ _ => simp [isCompAt]
        | grpDestroy _ => simp [isCompAt]
        | sessDestroy => simp [isCompAt]
    · intro a ha
      rcases List.mem_append.mp ha with h | h
      · exact genTrace_no_disp_ne hs d (d + 1) (by omega) es a h
      · have : a = EvAction.grpDestroy d := by simpa using h
        rw [this]
        simp [isDispAt]

/-- C2 witness: one root event with two appended children, no halt. -/
theorem evm_session_generation_order_witness :
    dispAt 0 (processSession apNest hsNone 2 ⟨[⟨0, [⟨0, false⟩]⟩]⟩) = [0] ∧
      ordered (processSession apNest hsNone 2 ⟨[⟨0, [⟨0, false⟩]⟩]⟩) (isCompAt 0) (isDispAt 1) :=
  ⟨(evm_session_generation_order apNest hsNone 1 0 [⟨0, false⟩] (by simp)
      (fun e _ => rfl)).2.1,
    (evm_session_generation_order apNest hsNone 1 0 [⟨0, false⟩] (by simp)
      (fun e _ => rfl)).2.2⟩

/-- A map producing only destroy actions contributes no hand-off. -/
theorem allDisp_map_evD {α : Type} (l : List α) (g : α → Nat) (b : α → Bool) :
    allDisp (l.map (fun x => EvAction.evDestroy (g x) (b x))) = [] := by
  refine List.filterMap_eq_nil_iff.mpr ?_
  intro a ha
  obtain ⟨x, _, hx⟩ := List.mem_map.mp ha
  rw [← hx]

/-- Processing a group whose event `e` is preceded by non-halting events
and halts: the events before `e` are fully processed, `e` is dispatched and
destroyed (its flag set), `evm_dispatch_event` returns the inverted halt —
`false` — and the loop hands back the undispatched remainder. -/
theorem processEvents_halt (ap : Nat → List Nat) (hs : Nat → Bool) (d : Nat) (e : MEvent)
    (he : hs e.uid = true) :
    ∀ (es1 es2 : List MEvent) (s : MSession), (∀ x ∈ es1, hs x.uid = false) →
      processEvents ap hs d (es1 ++ e :: es2) s
        = (genTrace hs d es1
            ++ [.disp e.uid d, .comp e.uid d true, .evDestroy e.uid true],
           appendAll s (childUids ap (es1 ++ [e])), false, es2) := by
  intro es1
  induction es1 with
  | nil =>
    intro es2 s _
    simp only [List.nil_append, processEvents, evm_dispatch_event, he, Bool.not_true,
      Bool.false_eq_true, if_false]
    simp [genTrace, childUids]
  | cons x t ih =>
    intro es2 s hh
    have hx : hs x.uid = false := hh x (List.mem_cons_self x t)
    simp only [List.cons_append, processEvents, evm_dispatch_event, hx, Bool.not_false, if_true]
    rw [show t.append (e :: es2) = t ++ e :: es2 from rfl,
      ih es2 (appendAll s (ap x.uid)) (fun y hy => hh y (List.mem_cons_of_mem _ hy))]
    simp [genTrace, childUids, appendAll_append, hx]

/-- C3: if the session callback sets `halt = true` in the `EventComplete`
notification of event `e` (with everything dispatched before `e` in its
generation not halting), then dispatch returns the inverted halt and session
processing stops: the events handed to listeners are exactly those up to and
including `e`; every child event the listeners appended — queued in the next
generation's group — is destroyed with `dispatched = false` when the session
is torn down; and the undispatched remainder of `e`'s own group is likewise
destroyed with `dispatched = false`. -/
theorem evm_session_halt_stops (ap : Nat → List Nat) (hs : Nat → Bool) (f d : Nat)
    (es1 es2 : List MEvent) (e : MEvent)
    (hh1 : ∀ x ∈ es1, hs x.uid = false)
    (hhe : hs e.uid = true)
    (hd2 : ∀ x ∈ es2, x.dispatched = false) :
    processSession ap hs (f + 1) ⟨[⟨d, es1 ++ e :: es2⟩]⟩
        = genTrace hs d es1
          ++ [.disp e.uid d, .comp e.uid d true, .evDestroy e.uid true]
          ++ es2.map (fun x => EvAction.evDestroy x.uid false)
          ++ [.grpDestroy d]
          ++ (childUids ap (es1 ++ [e])).map (fun u => EvAction.evDestroy u false)
          ++ [.grpDestroy (d + 1), .sessDestroy] ∧
      allDisp (processSession ap hs (f + 1) ⟨[⟨d, es1 ++ e :: es2⟩]⟩)
        = (es1 ++ [e]).map (fun x => x.uid) ∧
      (∀ u ∈ childUids ap (es1 ++ [e]),
        EvAction.evDestroy u false ∈ processSession ap hs (f + 1) ⟨[⟨d, es1 ++ e :: es2⟩]⟩) ∧
      (∀ x ∈ es2,
        EvAction.evDestroy x.uid false ∈ processSession ap hs (f + 1) ⟨[⟨d, es1 ++ e :: es2⟩]⟩) := by
  have hee : (es1 ++ e :: es2).isEmpty = false := by cases es1 <;> rfl
  have hpe := processEvents_halt ap hs d e hhe es1 es2 ⟨[⟨d + 1, []⟩]⟩ hh1
  have hes2 : es2.map (fun x => EvAction.evDestroy x.uid x.dispatched)
      = es2.map (fun x => EvAction.evDestroy x.uid false) :=
    List.map_congr_left (fun x hx => by rw [hd2 x hx])
  have hloopEq : processLoop ap hs (f + 1) ⟨[⟨d, es1 ++ e :: es2⟩]⟩
      = ((genTrace hs d es1
            ++ [.disp e.uid d, .comp e.uid d true, .evDestroy e.uid true])
          ++ es2.map (fun x => EvAction.evDestroy x.uid x.dispatched) ++ [.grpDestroy d],
         ⟨[⟨d + 1, (childUids ap (es1 ++ [e])).map mkEv⟩]⟩) := by
    simp only [processLoop, hee, Bool.false_eq_true, if_false, List.nil_append, hpe,
      appendAll_single, List.map_nil, List.nil_append]
  have hdes : destroySessionTrace ⟨[⟨d + 1, (childUids ap (es1 ++ [e])).map mkEv⟩]⟩
      = (childUids ap (es1 ++ [e])).map (fun u => EvAction.evDestroy u false)
        ++ [.grpDestroy (d + 1), .sessDestroy] := by
    simp [destroySessionTrace, mkEv, List.map_map]
  have hses : processSession ap hs (f + 1) ⟨[⟨d, es1 ++ e :: es2⟩]⟩
      = (((genTrace hs d es1
            ++ [.disp e.uid d, .comp e.uid d true, .evDestroy e.uid true])
          ++ es2.map (fun x => EvAction.evDestroy x.uid x.dispatched) ++ [.grpDestroy d]))
        ++ ((childUids ap (es1 ++ [e])).map (fun u => EvAction.evDestroy u false)
          ++ [.grpDestroy (d + 1), .sessDestroy]) := by
    unfold processSession
    rw [hloopEq]
    show ((genTrace hs d es1
          ++ [EvAction.disp e.uid d, EvAction.comp e.uid d true, EvAction.evDestroy e.uid true])
        ++ es2.map (fun x => EvAction.evDestroy x.uid x.dispatched) ++ [EvAction.grpDestroy d])
        ++ destroySessionTrace ⟨[⟨d + 1, (childUids ap (es1 ++ [e])).map mkEv⟩]⟩ = _
    rw [hdes]
  refine ⟨?_, ?_, ?_, ?_⟩
  · rw [hses, hes2]
    simp [List.append_assoc]
  · rw [hses]
    show allDisp _ = _
    unfold allDisp
    rw [List.filterMap_append, List.filterMap_append, List.filterMap_append,
      List.filterMap_append]
    show (((allDisp (genTrace hs d es1)
        ++ allDisp [.disp e.uid d, .comp e.uid d true, .evDestroy e.uid true])
        ++ allDisp (es2.map (fun x => EvAction.evDestroy x.uid x.dispatched))
        ++ allDisp [.grpDestroy d]))
        ++ allDisp ((childUids ap (es1 ++ [e])).map (fun u => EvAction.evDestroy u false)
          ++ [.grpDestroy (d + 1), .sessDestroy]) = _
    rw [genTrace_allDisp]
    have hmid := allDisp_map_evD es2 (fun x => x.uid) (fun x => x.dispatched)
    have hlast : allDisp ((childUids ap (es1 ++ [e])).map (fun u => EvAction.evDestroy u false)
        ++ [EvAction.grpDestroy (d + 1), EvAction.sessDestroy]) = [] := by
      refine List.filterMap_eq_nil_iff.mpr ?_
      intro a ha
      rcases List.mem_append.mp ha with h | h
      · obtain ⟨x, _, hx⟩ := List.mem_map.mp h
        rw [← hx]
      · have ha2 : a = EvAction.grpDestroy (d + 1) ∨ a = EvAction.sessDestroy := by
          simpa using h
        rcases ha2 with h' | h' <;> rw [h']
    rw [hmid, hlast]
    simp [allDisp]
  · intro u hu
    rw [hses]
    refine List.mem_append_right _ (List.mem_append_left _ ?_)
    exact List.mem_map_of_mem _ hu
  · intro x hx
    rw [hses]
    refine List.mem_append_left _ (List.mem_append_left _ (List.mem_append_right _ ?_))
    have hmem : EvAction.evDestroy x.uid false
        ∈ es2.map (fun x => EvAction.evDestroy x.uid x.dispatched) := by
      rw [hes2]
      exact List.mem_map_of_mem _ hx
    exact hmem

/-- C3 witness: scenario 5 of the specification — the root event appends two
children and its `EventComplete` halts; the children are destroyed
undispatched. -/
theorem evm_session_halt_stops_witness :
    allDisp (processSession apNest hsHalt 2 ⟨[⟨0, [⟨0, false⟩]⟩]⟩) = [0] ∧
      EvAction.evDestroy 1 false ∈ processSession apNest hsHalt 2 ⟨[⟨0, [⟨0, false⟩]⟩]⟩ ∧
      EvAction.evDestroy 2 false ∈ processSession apNest hsHalt 2 ⟨[⟨0, [⟨0, false⟩]⟩]⟩ :=
  ⟨(evm_session_halt_stops apNest hsHalt 1 0 [] [] ⟨0, false⟩
      (fun x hx => absurd hx (List.not_mem_nil x)) rfl
      (fun x hx => absurd hx (List.not_mem_nil x))).2.1,
    (evm_session_halt_stops apNest hsHalt 1 0 [] [] ⟨0, false⟩
      (fun x hx => absurd hx (List.not_mem_nil x)) rfl
      (fun x hx => absurd hx (List.not_mem_nil x))).2.2.1 1 (by decide),
    (evm_session_halt_stops apNest hsHalt 1 0 [] [] ⟨0, false⟩
      (fun x hx => absurd hx (List.not_mem_nil x)) rfl
      (fun x hx => absurd hx (List.not_mem_nil x))).2.2.1 2 (by decide)⟩

end CEvm
